import Mathlib

/-!
Verification of the golex lexical-scanning engine.

The Go source is shallowly embedded: strings are lists of bytes
(`List Nat`, each < 256 in practice), runes are `Int` (Go `rune` is
`int32`, and the engine uses the negative sentinel `rune(TokenEOF)`),
byte offsets are `Nat`, and the token channel is an explicit FIFO
queue with a closed flag.  State functions (`StateFn`) form an
arbitrary graph, modelled as a transition function over an abstract
type of state names: one step of a state function yields the list of
tokens it sends, the updated lexer, and the next state name (or none,
the terminal marker `nil`).
-/

namespace Golex

/-- Go `type TokenType int`. -/
abbrev TokenType := Int

/-- Go `TokenEOF TokenType = -2`. -/
def TokenEOF : TokenType := -2

/-- Go `TokenError TokenType = -1`. -/
def TokenError : TokenType := -1

/-- Go `type Token struct { Typ TokenType; Val string }`.
`Val` is a byte string, modelled as a list of byte values. -/
structure Token where
  Typ : TokenType
  Val : List Nat
deriving DecidableEq

/-- The zero value of `Token` in Go: `Token{0, ""}` (what a receive on a
closed, drained channel yields). -/
def zeroToken : Token := ⟨0, []⟩

/-- Go `const EOF = rune(TokenEOF)`, i.e. the rune `-2`. -/
def EOF : Int := -2

/-- The cursor fields of Go `type Lexer struct`.  The `State` and
`InitialState` function fields are handled by the runner model below;
the `Tokens` channel is modelled separately as an explicit queue. -/
structure Lexer where
  Name : List Nat
  Input : List Nat
  Start : Nat
  Current : Nat
  Width : Nat
deriving DecidableEq

/-- Go `utf8.RuneError = '�'`. -/
def runeError : Int := 0xFFFD

/-- Go `utf8.DecodeRuneInString`: first rune of a byte string together
with its byte width.  Faithful to the Go implementation: ASCII is one
byte; leading bytes `0x80..0xC1` and `0xF5..0xFF` are invalid; two-,
three- and four-byte sequences check continuation bytes against the
acceptance ranges of the Go `first`/`acceptRanges` tables; any failure
(including a truncated sequence) yields `(RuneError, 1)`; the empty
string yields `(RuneError, 0)`. -/
def decodeRune : List Nat → Int × Nat
  | [] => (runeError, 0)
  | b0 :: rest =>
    if b0 < 0x80 then ((b0 : Int), 1)
    else if b0 < 0xC2 then (runeError, 1)
    else if b0 < 0xE0 then
      match rest with
      | b1 :: _ =>
        if 0x80 ≤ b1 ∧ b1 ≤ 0xBF then
          (((b0 % 0x20) * 0x40 + b1 % 0x40 : Nat), 2)
        else (runeError, 1)
      | [] => (runeError, 1)
    else if b0 < 0xF0 then
      match rest with
      | b1 :: b2 :: _ =>
        if ((if b0 = 0xE0 then 0xA0 else 0x80) ≤ b1 ∧
            b1 ≤ (if b0 = 0xED then 0x9F else 0xBF)) ∧
           (0x80 ≤ b2 ∧ b2 ≤ 0xBF) then
          (((b0 % 0x10) * 0x1000 + (b1 % 0x40) * 0x40 + b2 % 0x40 : Nat), 3)
        else (runeError, 1)
      | _ => (runeError, 1)
    else if b0 < 0xF5 then
      match rest with
      | b1 :: b2 :: b3 :: _ =>
        if ((if b0 = 0xF0 then 0x90 else 0x80) ≤ b1 ∧
            b1 ≤ (if b0 = 0xF4 then 0x8F else 0xBF)) ∧
           (0x80 ≤ b2 ∧ b2 ≤ 0xBF) ∧ (0x80 ≤ b3 ∧ b3 ≤ 0xBF) then
          (((b0 % 8) * 0x40000 + (b1 % 0x40) * 0x1000 +
              (b2 % 0x40) * 0x40 + b3 % 0x40 : Nat), 4)
        else (runeError, 1)
      | _ => (runeError, 1)
    else (runeError, 1)

/-- Go `func (l *Lexer) Next() rune`: at end of input set `Width = 0`
and return `EOF`; otherwise decode the rune at `Current`, record its
byte width in `Width` and advance `Current` by it. -/
def Next (l : Lexer) : Int × Lexer :=
  if l.Current ≥ l.Input.length then (EOF, { l with Width := 0 })
  else
    let d := decodeRune (l.Input.drop l.Current)
    (d.1, { l with Width := d.2, Current := l.Current + d.2 })

/-- Go `func (l *Lexer) Ignore()`: `l.Start = l.Current`. -/
def Ignore (l : Lexer) : Lexer := { l with Start := l.Current }

/-- Go `func (l *Lexer) Backup()`: `l.Current -= l.Width`. -/
def Backup (l : Lexer) : Lexer := { l with Current := l.Current - l.Width }

/-- Go `func (l *Lexer) Peek() rune`: `Next` followed by `Backup`,
returning the rune read. -/
def Peek (l : Lexer) : Int × Lexer :=
  let p := Next l
  (p.1, Backup p.2)

/-- Go `utf8.ValidRune`: in range `0..0x10FFFF` and not a surrogate. -/
def validRune (r : Int) : Bool :=
  (0 ≤ r && r ≤ 0x10FFFF) && !(0xD800 ≤ r && r ≤ 0xDFFF)

/-- Go `strings.IndexRune(valid, r) >= 0`, with the set string given by
its decoded rune sequence: an invalid rune (in particular the `EOF`
sentinel `-2`) never matches; a valid rune matches iff it occurs. -/
def indexRuneMem (valid : List Int) (r : Int) : Bool :=
  validRune r && valid.contains r

/-- Go `func (l *Lexer) Accept(valid string) bool`: read a rune; keep
the advance and return true if it is in the set, otherwise back up and
return false. -/
def Accept (valid : List Int) (l : Lexer) : Bool × Lexer :=
  if indexRuneMem valid (Next l).1 then (true, (Next l).2)
  else (false, Backup (Next l).2)

/-- Loop body of Go `func (l *Lexer) AcceptRun(valid string)`, with a
fuel bound on the number of iterations.  Each accepted rune advances
`Current` by at least one byte, so `l.Input.length + 1` fuel (as used
by `AcceptRun`) is never exhausted. -/
def acceptRunGo (valid : List Int) : Nat → Lexer → Lexer
  | 0, l => l
  | fuel + 1, l =>
    let p := Next l
    if indexRuneMem valid p.1 then acceptRunGo valid fuel p.2
    else Backup p.2

/-- Go `func (l *Lexer) AcceptRun(valid string)`: read runes while they
are in the set, then back up over the first rune that is not. -/
def AcceptRun (valid : List Int) (l : Lexer) : Lexer :=
  acceptRunGo valid (l.Input.length + 1) l

/-- Go `func (l *Lexer) Emit(tt TokenType)`: build the token
`Token{tt, l.Input[l.Start:l.Current]}`, send it (the first component
of the result), and set `Start = Current`. -/
def Emit (tt : TokenType) (l : Lexer) : Token × Lexer :=
  (⟨tt, (l.Input.drop l.Start).take (l.Current - l.Start)⟩,
   { l with Start := l.Current })

/-- Go `func (l *Lexer) NextHasPrefix(prefix string) bool`:
`strings.HasPrefix(l.Input[l.Current:], prefix)`.  It reads no rune and
assigns no field. -/
def NextHasPrefix (pre : List Nat) (l : Lexer) : Bool :=
  List.isPrefixOf pre (l.Input.drop l.Current)

/-- The documented cursor invariant: `Start ≤ Current ≤ length Input`. -/
def LexInv (l : Lexer) : Prop :=
  l.Start ≤ l.Current ∧ l.Current ≤ l.Input.length

instance (l : Lexer) : Decidable (LexInv l) := by
  unfold LexInv; infer_instance

/-! ### The delivery channel -/

/-- The `Tokens` channel, as its observable state: the queued tokens in
FIFO order and whether `close` has been called. -/
structure Chan where
  buf : List Token
  closed : Bool
deriving DecidableEq

/-- One Go channel receive `<-l.Tokens`: the front of the queue if one
is buffered; the zero `Token` if the channel is closed and drained;
otherwise the receive blocks (`none`). -/
def recv (c : Chan) : Option (Token × Chan) :=
  match c.buf with
  | t :: ts => some (t, ⟨ts, c.closed⟩)
  | [] => if c.closed then some (zeroToken, c) else none

/-- Go `func (l *Lexer) Listen() (t Token, done bool)`: a blocking
receive, paired with `done := (t.Typ == TokenEOF)`. -/
def Listen (c : Chan) : Option ((Token × Bool) × Chan) :=
  (recv c).map (fun p => ((p.1, decide (p.1.Typ = TokenEOF)), p.2))

/-! ### The state-machine runner -/

/-- A grammar: the graph of Go `StateFn`s, as a transition function on
an abstract type `σ` of state names.  `g s l` is the effect of running
the state function named `s` on the lexer `l`: the tokens it sends on
the channel in order, the updated lexer, and the state function it
returns (`none` is Go `nil`, the terminal marker). -/
abbrev Grammar (σ : Type) := σ → Lexer → List Token × Lexer × Option σ

/-- Go `func (l *Lexer) run()` with a fuel bound on the number of state
transitions: the loop `for state := l.InitialState; state != nil;
{ state = state(l) }` followed by `close(l.Tokens)`.  A completed run
returns the full ordered list of tokens sent on the channel and the
final lexer; `none` means the fuel ran out before the run completed. -/
def runFuel {σ : Type} (g : Grammar σ) : Nat → σ → Lexer → Option (List Token × Lexer)
  | 0, _, _ => none
  | n + 1, s, l =>
    match g s l with
    | (ts, l2, none) => some (ts, l2)
    | (ts, l2, some s2) =>
      match runFuel g n s2 l2 with
      | none => none
      | some (tr, lf) => some (ts ++ tr, lf)

/-! ### The pull protocol (`NextToken`) -/

/-- The state visible to a `NextToken` call: the channel (queue plus
closed flag), the `State` field (`none` is Go `nil`), and the cursor. -/
structure PullState (σ : Type) where
  buf : List Token
  closed : Bool
  state : Option σ
  lex : Lexer

/-- Outcome of one `NextToken` call. -/
inductive NTResult (σ : Type) where
  | tok (t : Token) (done : Bool) (ps : PullState σ)
  | panicNil
  | outOfFuel

/-- Go `func (l *Lexer) NextToken() (Token, bool)`: loop a non-blocking
receive (`select` with `default`); on a received token return it with
`done := (token.Typ == TokenEOF)`; otherwise run one transition
`l.State = l.State(l)` and retry.  A receive on a closed drained
channel is ready and yields the zero token.  When the channel is empty
and open and `State` is `nil`, the call `l.State(l)` dereferences a nil
function: a runtime panic, modelled as `panicNil`.  `fuel` bounds the
number of loop iterations. -/
def nextTokenGo {σ : Type} (g : Grammar σ) : Nat → PullState σ → NTResult σ
  | 0, _ => .outOfFuel
  | fuel + 1, ps =>
    match ps.buf with
    | t :: ts => .tok t (decide (t.Typ = TokenEOF)) ⟨ts, ps.closed, ps.state, ps.lex⟩
    | [] =>
      if ps.closed then .tok zeroToken (decide (zeroToken.Typ = TokenEOF)) ps
      else
        match ps.state with
        | none => .panicNil
        | some s =>
          match g s ps.lex with
          | (ts, l2, s2) => nextTokenGo g fuel ⟨ts, ps.closed, s2, l2⟩

/-- The token sequence delivered by repeated `NextToken` calls, with a
fuel bound.  This is the call loop of `nextTokenGo` flattened: each
iteration either delivers the front of the queue, or — queue empty —
receives the zero token when the channel is closed, stops when `State`
is `nil` (the next call would panic, see `nextTokenGo`), or runs one
state transition.  Flattening the per-call loops does not change the
delivered order. -/
def pullTokens {σ : Type} (g : Grammar σ) : Nat → PullState σ → List Token
  | 0, _ => []
  | fuel + 1, ps =>
    match ps.buf with
    | t :: ts => t :: pullTokens g fuel ⟨ts, ps.closed, ps.state, ps.lex⟩
    | [] =>
      if ps.closed then zeroToken :: pullTokens g fuel ps
      else
        match ps.state with
        | none => []
        | some s =>
          match g s ps.lex with
          | (ts, l2, s2) => pullTokens g fuel ⟨ts, ps.closed, s2, l2⟩

/-! ### The push protocol (`RunSync`/`RunConc` then `Listen`) -/

/-- The token sequence obtained by `k` successive `Listen` calls on a
channel; a blocked receive ends the sequence. -/
def listenCalls : Nat → Chan → List Token
  | 0, _ => []
  | k + 1, c =>
    match Listen c with
    | some (tb, c2) => tb.1 :: listenCalls k c2
    | none => []

/-! ### Terminal tokens and well-behaved grammars -/

/-- A terminal token: its type is one of the two reserved sentinels. -/
def isTerminalTok (t : Token) : Bool :=
  t.Typ == TokenEOF || t.Typ == TokenError

/-- A grammar that follows the engine's terminal-token convention: a
state function that returns `nil` sends exactly one terminal token,
as its last send (the pattern of `Emit(TokenEOF); return nil` and of
`Errorf`), and a state function that returns a next state sends no
terminal token. -/
def WellBehaved {σ : Type} (g : Grammar σ) : Prop :=
  ∀ (s : σ) (l : Lexer),
    ((g s l).2.2 = none →
      ∃ us t, (g s l).1 = us ++ [t] ∧
        us.all (fun u => !isTerminalTok u) ∧ isTerminalTok t) ∧
    ((g s l).2.2 ≠ none → (g s l).1.all (fun u => !isTerminalTok u))

/-! ### Concrete fixtures for witnesses and counterexamples -/

/-- A lexer freshly built by `New` on empty input. -/
def lexNil : Lexer := ⟨[], [], 0, 0, 0⟩

/-- A lexer on the two-byte input `hi`, one byte already read. -/
def lexHi : Lexer := ⟨[], [104, 105], 0, 1, 1⟩

/-- A lexer on the two-byte input `hi`, nothing read yet. -/
def lexHi0 : Lexer := ⟨[], [104, 105], 0, 0, 0⟩

/-- A lexer on the one-byte input `h`, fully read. -/
def lexEnd : Lexer := ⟨[], [104], 0, 1, 1⟩

/-- An error token carrying the diagnostic text `bad`. -/
def errTok : Token := ⟨TokenError, [98, 97, 100]⟩

/-- The End-of-stream token with empty value. -/
def eofTok : Token := ⟨TokenEOF, []⟩

/-- A user text token with value `a`. -/
def aTok : Token := ⟨0, [97]⟩

/-- The one-state grammar whose state function sends nothing and
immediately returns `nil` (Go: `func(l *Lexer) StateFn { return nil }`). -/
def trivGrammar : Grammar Unit := fun _ l => ([], l, none)

/-- The one-state grammar whose state function emits the End-of-stream
token and returns `nil`. -/
def eofGrammar : Grammar Unit := fun _ l => ([eofTok], l, none)

/-- The one-state grammar whose state function emits a text token and
then the End-of-stream token, and returns `nil`. -/
def abGrammar : Grammar Unit := fun _ l => ([aTok, eofTok], l, none)

/-! ## Helper lemmas -/

lemma decodeRune_width_pos (b : Nat) (rest : List Nat) :
    1 ≤ (decodeRune (b :: rest)).2 := by
  rcases rest with _ | ⟨b1, _ | ⟨b2, _ | ⟨b3, tl⟩⟩⟩ <;>
    · simp only [decodeRune]
      split_ifs <;> simp

lemma decodeRune_width_le (bs : List Nat) :
    (decodeRune bs).2 ≤ bs.length := by
  rcases bs with _ | ⟨b0, _ | ⟨b1, _ | ⟨b2, _ | ⟨b3, tl⟩⟩⟩⟩ <;>
    · simp only [decodeRune]
      try split_ifs <;> simp
      try simp

lemma Next_at_end {l : Lexer} (h : l.Input.length ≤ l.Current) :
    Next l = (EOF, { l with Width := 0 }) := by
  simp [Next, h]

lemma Next_lt {l : Lexer} (h : l.Current < l.Input.length) :
    Next l = ((decodeRune (l.Input.drop l.Current)).1,
      { l with Width := (decodeRune (l.Input.drop l.Current)).2,
               Current := l.Current + (decodeRune (l.Input.drop l.Current)).2 }) := by
  simp [Next, not_le.mpr h]

lemma decode_at_current_bounds {l : Lexer} (h : l.Current < l.Input.length) :
    1 ≤ (decodeRune (l.Input.drop l.Current)).2 ∧
    l.Current + (decodeRune (l.Input.drop l.Current)).2 ≤ l.Input.length := by
  obtain ⟨b, rest, hbr⟩ :=
    List.exists_cons_of_ne_nil (l := l.Input.drop l.Current)
      (by simp [List.drop_eq_nil_iff]; omega)
  constructor
  · rw [hbr]; exact decodeRune_width_pos b rest
  · have hle := decodeRune_width_le (l.Input.drop l.Current)
    rw [List.length_drop] at hle
    omega

lemma backup_next_current (l : Lexer) :
    (Backup (Next l).2).Current = l.Current := by
  rcases le_or_lt l.Input.length l.Current with hle | hlt
  · rw [Next_at_end hle]; simp [Backup]
  · rw [Next_lt hlt]; simp [Backup]

lemma Next_inv {l : Lexer} (h : LexInv l) : LexInv (Next l).2 := by
  rcases le_or_lt l.Input.length l.Current with hle | hlt
  · rw [Next_at_end hle]; exact h
  · rw [Next_lt hlt]
    exact ⟨le_trans h.1 (Nat.le_add_right _ _), (decode_at_current_bounds hlt).2⟩

lemma backup_next_inv {l : Lexer} (h : LexInv l) : LexInv (Backup (Next l).2) := by
  have hc := backup_next_current l
  have hs : (Backup (Next l).2).Start = l.Start := by
    rcases le_or_lt l.Input.length l.Current with hle | hlt
    · rw [Next_at_end hle]; simp [Backup]
    · rw [Next_lt hlt]; simp [Backup]
  have hi : (Backup (Next l).2).Input = l.Input := by
    rcases le_or_lt l.Input.length l.Current with hle | hlt
    · rw [Next_at_end hle]; simp [Backup]
    · rw [Next_lt hlt]; simp [Backup]
  exact ⟨by rw [hs, hc]; exact h.1, by rw [hc, hi]; exact h.2⟩

lemma acceptRunGo_inv (valid : List Int) :
    ∀ (fuel : Nat) (l : Lexer), LexInv l → LexInv (acceptRunGo valid fuel l) := by
  intro fuel
  induction fuel with
  | zero => intro l h; exact h
  | succ fuel ih =>
    intro l h
    simp only [acceptRunGo]
    split_ifs with hm
    · exact ih _ (Next_inv h)
    · exact backup_next_inv h

lemma eof_not_member (valid : List Int) : indexRuneMem valid EOF = false := by
  have h : validRune EOF = false := by decide
  simp [indexRuneMem, h]

/-! ## Claims -/

/-- Claim C4: for every lexer state with `Start ≤ Current ≤ length Input`,
each primitive operation — `Next`, `Backup` immediately after a `Next`,
`Peek`, `Accept`, `AcceptRun`, `Ignore`, `Emit`, `NextHasPrefix` —
re-establishes `Start ≤ Current ≤ length Input`.  (`NextHasPrefix`
returns only a `Bool` and leaves every lexer field unchanged, so the
state after it is `l` itself.) -/
theorem C4_primitives_preserve_inv (l : Lexer) (valid : List Int)
    (tt : TokenType) (pre : List Nat) (h : LexInv l) :
    LexInv (Next l).2 ∧ LexInv (Backup (Next l).2) ∧ LexInv (Peek l).2 ∧
    LexInv (Accept valid l).2 ∧ LexInv (AcceptRun valid l) ∧
    LexInv (Ignore l) ∧ LexInv (Emit tt l).2 ∧
    (NextHasPrefix pre l = NextHasPrefix pre l ∧ LexInv l) := by
  refine ⟨Next_inv h, backup_next_inv h, backup_next_inv h, ?_,
    acceptRunGo_inv valid _ l h, ⟨le_refl _, h.2⟩, ⟨le_refl _, h.2⟩, rfl, h⟩
  unfold Accept
  split_ifs with hm
  · exact Next_inv h
  · exact backup_next_inv h

/-- Witness for C4 at the concrete lexer `lexHi` (input `hi`, `Start 0`,
`Current 1`, `Width 1`). -/
theorem C4_witness :
    LexInv lexHi ∧
    (LexInv (Next lexHi).2 ∧ LexInv (Backup (Next lexHi).2) ∧
     LexInv (Peek lexHi).2 ∧ LexInv (Accept [104] lexHi).2 ∧
     LexInv (AcceptRun [104] lexHi) ∧ LexInv (Ignore lexHi) ∧
     LexInv (Emit 0 lexHi).2 ∧
     (NextHasPrefix [105] lexHi = NextHasPrefix [105] lexHi ∧ LexInv lexHi)) :=
  ⟨by decide, C4_primitives_preserve_inv lexHi [104] 0 [105] (by decide)⟩

/-- Claim C5: `Backup` immediately after a `Next` restores `Current` to
its value before that `Next` (at end of input `Next` set `Width` to 0,
so `Backup` subtracts 0); consequently `Peek` returns the same rune as
`Next` and leaves `Current` unchanged. -/
theorem C5_backup_restores_current (l : Lexer) :
    (Backup (Next l).2).Current = l.Current ∧
    (Peek l).2.Current = l.Current ∧ (Peek l).1 = (Next l).1 :=
  ⟨backup_next_current l, backup_next_current l, rfl⟩

/-- Claim C6: with `Current < length Input`, `Next` returns the rune
decoded at byte offset `Current`, advances `Current` by that rune's
byte width and records the width in `Width`; with `Current ≥ length
Input` it returns the End-of-stream sentinel rune `EOF = rune(TokenEOF)`
and sets `Width` to 0, leaving `Current` unchanged. -/
theorem C6_next_reads_rune (l : Lexer) :
    (l.Current < l.Input.length →
      Next l = ((decodeRune (l.Input.drop l.Current)).1,
        { l with Width := (decodeRune (l.Input.drop l.Current)).2,
                 Current := l.Current + (decodeRune (l.Input.drop l.Current)).2 })) ∧
    (l.Input.length ≤ l.Current → Next l = (EOF, { l with Width := 0 })) ∧
    EOF = (TokenEOF : Int) :=
  ⟨fun h => Next_lt h, fun h => Next_at_end h, rfl⟩

/-- Witness for C6: the in-range case at `lexHi0` and the end-of-input
case at `lexEnd`. -/
theorem C6_witness :
    (lexHi0.Current < lexHi0.Input.length ∧
      Next lexHi0 = ((decodeRune (lexHi0.Input.drop lexHi0.Current)).1,
        { lexHi0 with
            Width := (decodeRune (lexHi0.Input.drop lexHi0.Current)).2,
            Current := lexHi0.Current +
              (decodeRune (lexHi0.Input.drop lexHi0.Current)).2 })) ∧
    (lexEnd.Input.length ≤ lexEnd.Current ∧
      Next lexEnd = (EOF, { lexEnd with Width := 0 })) :=
  ⟨⟨by decide, (C6_next_reads_rune lexHi0).1 (by decide)⟩,
   ⟨by decide, (C6_next_reads_rune lexEnd).2.1 (by decide)⟩⟩

/-- Claim C7: `Accept valid` returns true exactly when the next rune
(the one `Next` would read — at end of input the never-matching `EOF`
sentinel) is a member of the set, and in that case advances `Current`
by exactly that rune's byte width; otherwise it leaves `Current`
unchanged. -/
theorem C7_accept (valid : List Int) (l : Lexer) :
    (Accept valid l).1 = indexRuneMem valid (Next l).1 ∧
    (Accept valid l).2.Current =
      (if indexRuneMem valid (Next l).1 then
        l.Current + (decodeRune (l.Input.drop l.Current)).2
       else l.Current) := by
  constructor
  · unfold Accept
    split_ifs with hm <;> simp [hm]
  · unfold Accept
    split_ifs with hm
    · rcases le_or_lt l.Input.length l.Current with hle | hlt
      · rw [Next_at_end hle] at hm
        rw [eof_not_member valid] at hm
        exact absurd hm (by simp)
      · rw [Next_lt hlt]
    · exact backup_next_current l

/-- Claim C8: with `Start ≤ Current ≤ length Input`, `Emit tt` sends
exactly one token, whose `Val` is the byte substring
`Input[Start:Current)` and whose `Typ` is `tt`, then sets `Start` to
`Current`; `Input`, `Current`, `Width` and `Name` are unchanged (the
`State` function field is not assigned by `Emit` either; it is not part
of the cursor record here). -/
theorem C8_emit_frame (l : Lexer) (tt : TokenType)
    (h1 : l.Start ≤ l.Current) (h2 : l.Current ≤ l.Input.length) :
    (Emit tt l).1 =
      ⟨tt, (l.Input.drop l.Start).take (l.Current - l.Start)⟩ ∧
    (Emit tt l).2.Start = l.Current ∧
    (Emit tt l).2.Input = l.Input ∧
    (Emit tt l).2.Current = l.Current ∧
    (Emit tt l).2.Width = l.Width ∧
    (Emit tt l).2.Name = l.Name :=
  ⟨rfl, rfl, rfl, rfl, rfl, rfl⟩

/-- Witness for C8 at the concrete lexer `lexHi` and token type 0. -/
theorem C8_witness :
    (lexHi.Start ≤ lexHi.Current ∧ lexHi.Current ≤ lexHi.Input.length) ∧
    ((Emit 0 lexHi).1 =
       ⟨0, (lexHi.Input.drop lexHi.Start).take (lexHi.Current - lexHi.Start)⟩ ∧
     (Emit 0 lexHi).2.Start = lexHi.Current ∧
     (Emit 0 lexHi).2.Input = lexHi.Input ∧
     (Emit 0 lexHi).2.Current = lexHi.Current ∧
     (Emit 0 lexHi).2.Width = lexHi.Width ∧
     (Emit 0 lexHi).2.Name = lexHi.Name) :=
  ⟨⟨by decide, by decide⟩, C8_emit_frame lexHi 0 (by decide) (by decide)⟩

/-- Claim C1 fails on the code: for a received token of the reserved
Error type, both `Listen` and `NextToken` compare the type against
`TokenEOF` only and report `done = false`, although the claim (and the
spec sentence it freezes) requires `done = true` for both sentinels.
This theorem evaluates the code at the failing input: an error token
queued on the channel. -/
theorem C1_error_token_not_done :
    Listen ⟨[errTok], true⟩ = some ((errTok, false), ⟨[], true⟩) ∧
    nextTokenGo trivGrammar 1 ⟨[errTok], false, none, lexNil⟩ =
      NTResult.tok errTok false ⟨[], false, none, lexNil⟩ ∧
    errTok.Typ = TokenError :=
  ⟨rfl, rfl, rfl⟩

/-- Claim C9: when the channel is empty (and open) and the `State`
field is `nil` — the previous transition returned the terminal marker —
`NextToken` invokes a nil state function, a runtime panic; when a token
is queued, the call is total and returns the front token. -/
theorem C9_nexttoken_nil_panic {σ : Type} (g : Grammar σ) (fuel : Nat)
    (l : Lexer) (t : Token) (q : List Token) (cl : Bool) (st : Option σ) :
    nextTokenGo g (fuel + 1) ⟨[], false, none, l⟩ = NTResult.panicNil ∧
    nextTokenGo g (fuel + 1) ⟨t :: q, cl, st, l⟩ =
      NTResult.tok t (decide (t.Typ = TokenEOF)) ⟨q, cl, st, l⟩ :=
  ⟨rfl, rfl⟩

/-- Claim C10: once the channel is closed and drained, `Listen` (and
`NextToken`, whose non-blocking receive is ready on a closed channel)
returns the zero-valued token `Token{0, ""}` with `done = false`; the
reserved sentinels are negative, so this zero type lies in the
caller-owned range and is indistinguishable from a user token. -/
theorem C10_closed_drained_zero_token {σ : Type} (g : Grammar σ)
    (fuel : Nat) (st : Option σ) (l : Lexer) :
    Listen ⟨[], true⟩ = some ((zeroToken, false), ⟨[], true⟩) ∧
    nextTokenGo g (fuel + 1) ⟨[], true, st, l⟩ =
      NTResult.tok zeroToken false ⟨[], true, st, l⟩ ∧
    zeroToken.Typ = 0 ∧ zeroToken.Val = [] ∧
    TokenEOF = -2 ∧ TokenError = -1 ∧
    TokenEOF < 0 ∧ TokenError < 0 ∧ 0 ≤ zeroToken.Typ ∧
    zeroToken.Typ ≠ TokenEOF ∧ zeroToken.Typ ≠ TokenError :=
  ⟨rfl, rfl, rfl, rfl, rfl, rfl, by decide, by decide, by decide,
   by decide, by decide⟩

/-- Claim C2, as stated, is false: the engine itself never sends a
terminal token — only state functions do — and nothing constrains them.
The grammar whose single state function sends nothing and immediately
returns `nil` completes its run with an empty token trace, containing
zero terminal tokens rather than exactly one. -/
theorem C2_counterexample :
    runFuel trivGrammar 1 () lexNil = some ([], lexNil) ∧
    List.countP (fun t => isTerminalTok t) ([] : List Token) = 0 :=
  ⟨rfl, rfl⟩

/-- Claim C2, amended: for every grammar whose state functions follow
the terminal-token convention (`WellBehaved`: a transition returning
the terminal marker sends exactly one terminal token, as its last send,
and any other transition sends none), a completed run sends exactly one
terminal token and it is the last token sent before the channel is
closed (the runner closes the channel only after the trace ends). -/
theorem C2_one_terminal_last {σ : Type} (g : Grammar σ) (hg : WellBehaved g) :
    ∀ (n : Nat) (s : σ) (l : Lexer) (tr : List Token) (lf : Lexer),
      runFuel g n s l = some (tr, lf) →
      ∃ us t, tr = us ++ [t] ∧
        us.all (fun u => !isTerminalTok u) ∧ isTerminalTok t := by
  intro n
  induction n with
  | zero => intro s l tr lf h; simp [runFuel] at h
  | succ n ih =>
    intro s l tr lf h
    rcases hgl : g s l with ⟨ts, l2, s2⟩
    have hw := hg s l
    rw [hgl] at hw
    cases s2 with
    | none =>
      simp only [runFuel, hgl] at h
      obtain ⟨us, t, hts, hall, hterm⟩ := hw.1 rfl
      obtain ⟨htr, hlf⟩ := Prod.mk.injEq .. ▸ Option.some.injEq .. ▸ h
      exact ⟨us, t, by rw [← htr]; exact hts, hall, hterm⟩
    | some s2 =>
      simp only [runFuel, hgl] at h
      cases hr : runFuel g n s2 l2 with
      | none => rw [hr] at h; simp at h
      | some r =>
        rcases r with ⟨tr2, lf2⟩
        rw [hr] at h
        simp only [Option.some.injEq, Prod.mk.injEq] at h
        obtain ⟨us, t, htr2, hall, hterm⟩ := ih s2 l2 tr2 lf2 hr
        have hts : ts.all (fun u => !isTerminalTok u) := hw.2 (by simp)
        refine ⟨ts ++ us, t, ?_, ?_, hterm⟩
        · rw [← h.1, htr2, List.append_assoc]
        · rw [List.all_append]
          simp [hts, hall]

/-- Witness for the amended C2: the grammar whose single state function
emits the End-of-stream token and returns `nil`. -/
theorem C2_witness :
    WellBehaved eofGrammar ∧
    runFuel eofGrammar 1 () lexNil = some ([eofTok], lexNil) ∧
    ∃ us t, [eofTok] = us ++ [t] ∧
      us.all (fun u => !isTerminalTok u) ∧ isTerminalTok t := by
  have hwb : WellBehaved eofGrammar := by
    intro s l
    constructor
    · intro _
      exact ⟨[], eofTok, rfl, rfl, rfl⟩
    · intro hne
      exact absurd rfl hne
  exact ⟨hwb, rfl, C2_one_terminal_last eofGrammar hwb 1 () lexNil [eofTok] lexNil rfl⟩

lemma pullTokens_buf {σ : Type} (g : Grammar σ) :
    ∀ (q : List Token) (fuel : Nat) (cl : Bool) (st : Option σ) (l : Lexer),
      pullTokens g (q.length + fuel) ⟨q, cl, st, l⟩ =
        q ++ pullTokens g fuel ⟨[], cl, st, l⟩ := by
  intro q
  induction q with
  | nil => intro fuel cl st l; simp
  | cons t q ih =>
    intro fuel cl st l
    have harith : (t :: q).length + fuel = (q.length + fuel) + 1 := by
      simp [List.length_cons]; omega
    rw [harith]
    simp only [pullTokens]
    rw [ih fuel cl st l]
    simp

lemma pullTokens_nil_state {σ : Type} (g : Grammar σ) :
    ∀ (fuel : Nat) (l : Lexer),
      pullTokens g fuel ⟨[], false, none, l⟩ = [] := by
  intro fuel l
  cases fuel <;> simp [pullTokens]

lemma pullTokens_run {σ : Type} (g : Grammar σ) :
    ∀ (n : Nat) (s : σ) (l : Lexer) (tr : List Token) (lf : Lexer),
      runFuel g n s l = some (tr, lf) →
      ∀ (extra : Nat),
        pullTokens g (tr.length + n + extra) ⟨[], false, some s, l⟩ = tr := by
  intro n
  induction n with
  | zero => intro s l tr lf h; simp [runFuel] at h
  | succ n ih =>
    intro s l tr lf h extra
    rcases hgl : g s l with ⟨ts, l2, s2⟩
    have hfuel : tr.length + (n + 1) + extra = (tr.length + n + extra) + 1 := by
      omega
    have hstep : pullTokens g ((tr.length + n + extra) + 1) ⟨[], false, some s, l⟩
        = pullTokens g (tr.length + n + extra) ⟨ts, false, s2, l2⟩ := by
      simp [pullTokens, hgl]
    rw [hfuel, hstep]
    cases s2 with
    | none =>
      simp only [runFuel, hgl] at h
      simp only [Option.some.injEq, Prod.mk.injEq] at h
      obtain ⟨htr, hlf⟩ := h
      subst htr
      have harith : ts.length + n + extra = ts.length + (n + extra) := by omega
      rw [harith, pullTokens_buf, pullTokens_nil_state]
      simp
    | some s2 =>
      simp only [runFuel, hgl] at h
      cases hr : runFuel g n s2 l2 with
      | none => rw [hr] at h; simp at h
      | some r =>
        rcases r with ⟨tr2, lf2⟩
        rw [hr] at h
        simp only [Option.some.injEq, Prod.mk.injEq] at h
        obtain ⟨htr, hlf⟩ := h
        subst htr
        have harith : (ts ++ tr2).length + n + extra
            = ts.length + (tr2.length + n + extra) := by
          simp [List.length_append]; omega
        rw [harith, pullTokens_buf, ih s2 l2 tr2 lf2 hr extra]

lemma listenCalls_closed :
    ∀ (tr : List Token), listenCalls tr.length ⟨tr, true⟩ = tr := by
  intro tr
  induction tr with
  | nil => simp [listenCalls]
  | cons t ts ih =>
    simp only [List.length_cons, listenCalls, Listen, recv, Option.map]
    exact congrArg (t :: ·) ih

/-- Claim C3: for every grammar and every input on which the run
completes with token trace `tr`, the pull protocol (repeated
`NextToken` calls with no background runner, here as the flattened
call loop `pullTokens`) delivers exactly `tr`, and the push protocol
(a completed `RunSync`/`RunConc`, which leaves the channel holding
`tr` in FIFO order and then closed, consumed by repeated `Listen`)
also delivers exactly `tr`; the two ordered sequences are equal.
Channel capacity is abstracted as an unbounded FIFO queue (the bound
only affects blocking, never the order or content of the sequence). -/
theorem C3_push_pull_agree {σ : Type} (g : Grammar σ) (n : Nat) (s : σ)
    (l : Lexer) (tr : List Token) (lf : Lexer)
    (h : runFuel g n s l = some (tr, lf)) :
    pullTokens g (tr.length + n) ⟨[], false, some s, l⟩ = tr ∧
    listenCalls tr.length ⟨tr, true⟩ = tr := by
  constructor
  · have hp := pullTokens_run g n s l tr lf h 0
    simpa using hp
  · exact listenCalls_closed tr

/-- Witness for C3: the one-state grammar emitting a text token then
the End-of-stream token, run to completion on empty input. -/
theorem C3_witness :
    runFuel abGrammar 1 () lexNil = some ([aTok, eofTok], lexNil) ∧
    (pullTokens abGrammar ([aTok, eofTok].length + 1)
        ⟨[], false, some (), lexNil⟩ = [aTok, eofTok] ∧
     listenCalls [aTok, eofTok].length ⟨[aTok, eofTok], true⟩ =
       [aTok, eofTok]) :=
  ⟨rfl, C3_push_pull_agree abGrammar 1 () lexNil [aTok, eofTok] lexNil rfl⟩

end Golex
